import Mathlib

/-!
Verification development for the text-mutation engine of
`textattack/shared/attacked_text.py` (class `AttackedText`).

Strings are modelled as `List Char`.  Python exceptions are modelled by an
error kind returned through `Except`.  NumPy integer arrays are `List ℤ`,
Python integer sets are `Finset ℤ`, and the `attack_attrs` dictionary is an
insertion-ordered association list.
-/

deriving instance DecidableEq for Except

namespace TextAttackSpec

/-- Kinds of Python exceptions the modelled code can raise. -/
inductive PyErr : Type where
  | valueError : PyErr
  | indexError : PyErr
  | typeError : PyErr
  | keyError : PyErr
deriving DecidableEq

/-- Modelled from the spec: the external tokenizer adapter `words_from_text`
(out of scope of the source file, specified only at its interface) splits raw
text into an ordered sequence of word strings.  We model a word as a maximal
run of alphanumeric characters, which reproduces the spec's examples
(e.g. "The quick fox jumps." tokenizes to [The, quick, fox, jumps]). -/
def isWordChar (c : Char) : Bool := c.isAlphanum

/-- Accumulator-style scanner for `words_from_text`: `acc` holds the reversed
characters of the word currently being read. -/
def wft_aux : List Char → List Char → List (List Char)
  | acc, [] => if acc = [] then [] else [acc.reverse]
  | acc, c :: cs =>
      if isWordChar c then wft_aux (c :: acc) cs
      else if acc = [] then wft_aux [] cs
      else acc.reverse :: wft_aux [] cs

/-- Modelled from the spec: `words_from_text text` returns the ordered list of
words of `text` (maximal runs of alphanumeric characters). -/
def words_from_text (s : List Char) : List (List Char) := wft_aux [] s

/-- Python `str.strip()`: remove leading and trailing whitespace. -/
def pyStrip (s : List Char) : List Char :=
  ((s.dropWhile Char.isWhitespace).reverse.dropWhile Char.isWhitespace).reverse

/-- Python `sep.join(parts)`. -/
def joinSep (sep : List Char) : List (List Char) → List Char
  | [] => []
  | [x] => x
  | x :: y :: rest => x ++ sep ++ joinSep sep (y :: rest)

/-- Position of the first occurrence of `pat` in `s` (Python `s.index(pat)` /
`s.find(pat)` return this or raise/return -1 when absent). -/
def subFind (pat : List Char) : List Char → Option ℕ
  | [] => if pat = [] then some 0 else none
  | c :: cs =>
      if pat.isPrefixOf (c :: cs) then some 0
      else (subFind pat cs).map (· + 1)

/-- Fuelled worker for Python `str.split(sep)` with a non-empty separator. -/
def pySplitF (sep : List Char) : ℕ → List Char → List (List Char)
  | 0, s => [s]
  | fuel + 1, s =>
      match subFind sep s with
      | none => [s]
      | some k => s.take k :: pySplitF sep fuel (s.drop (k + sep.length))

/-- Python `s.split(sep)` for a non-empty separator `sep`.  Each split step
consumes at least one character, so `s.length + 1` units of fuel suffice. -/
def pySplit (s sep : List Char) : List (List Char) := pySplitF sep (s.length + 1) s

/-- Python `str.lower()`, character by character. -/
def lowerLC (s : List Char) : List Char := s.map Char.toLower

/-- Python `str.find(pat, start)`: first index `≥ start` where `pat` occurs,
or -1; a negative `start` counts from the end of the string, clamped at 0. -/
def pyFindFrom (s pat : List Char) (start : ℤ) : ℤ :=
  let st : ℕ := (if start < 0 then max 0 ((s.length : ℤ) + start) else start).toNat
  match subFind pat (s.drop st) with
  | none => -1
  | some k => (st : ℤ) + k

/-- Normalize one Python slice bound: negative values count from the end, and
the result is clamped into `[0, len]`. -/
def pySliceIdx (len : ℕ) (i : ℤ) : ℕ :=
  (max 0 (min (len : ℤ) (if i < 0 then (len : ℤ) + i else i))).toNat

/-- Python slice `s[a : b]` for an arbitrary list. -/
def pySliceList {α : Type} (s : List α) (a b : ℤ) : List α :=
  (s.take (pySliceIdx s.length b)).drop (pySliceIdx s.length a)

/-- Python subscription `l[i]`: negative indices count from the end, and an
out-of-range index raises `IndexError`. -/
def pyGetElem {α : Type} (l : List α) (i : ℤ) : Except PyErr α :=
  let j : ℤ := if i < 0 then i + (l.length : ℤ) else i
  if j < 0 then .error .indexError
  else
    match l.get? j.toNat with
    | some x => .ok x
    | none => .error .indexError

/-- Python list assignment `l[i] = x`: negative indices count from the end, and
an out-of-range index raises `IndexError`. -/
def pySetElem {α : Type} (l : List α) (i : ℤ) (x : α) : Except PyErr (List α) :=
  let j : ℤ := if i < 0 then i + (l.length : ℤ) else i
  if j < 0 ∨ (l.length : ℤ) ≤ j then .error .indexError
  else .ok (l.set j.toNat x)






mutual

/-- Value stored in the `attack_attrs` dictionary: a NumPy integer array, a
Python set of integers, a plain integer, or another `AttackedText`
(the `previous_attacked_text` back-pointer). -/
inductive AttrValue : Type where
  | intArr (a : List ℤ) : AttrValue
  | intSet (s : Finset ℤ) : AttrValue
  | intV (n : ℤ) : AttrValue
  | snap (t : AttackedText) : AttrValue

/-- Insertion-ordered association list modelling the `attack_attrs` dict. -/
inductive AttrList : Type where
  | nil : AttrList
  | cons (k : String) (v : AttrValue) (rest : AttrList) : AttrList

/-- The `AttackedText` value object: `_text_input` (ordered mapping from
segment name to segment string) together with `attack_attrs`. -/
inductive AttackedText : Type where
  | mk (textInput : List (String × List Char)) (attrs : AttrList) : AttackedText

end

/-- The `_text_input` field. -/
def AttackedText.textInput : AttackedText → List (String × List Char)
  | .mk ti _ => ti

/-- The `attack_attrs` field. -/
def AttackedText.attrs : AttackedText → AttrList
  | .mk _ a => a

deriving instance DecidableEq for AttrValue

deriving instance DecidableEq for AttrList

deriving instance DecidableEq for AttackedText

/-- Dictionary lookup `d[k]` (as an `Option`). -/
def AttrList.lookup (k : String) : AttrList → Option AttrValue
  | .nil => none
  | .cons k2 v rest => if k2 = k then some v else AttrList.lookup k rest

/-- Python `dict.setdefault(k, v)`: keep an existing entry, else append the
new entry at the end (dicts preserve insertion order). -/
def AttrList.setdefault : AttrList → String → AttrValue → AttrList
  | .nil, k, v => .cons k v .nil
  | .cons k2 v2 rest, k, v =>
      if k2 = k then .cons k2 v2 rest
      else .cons k2 v2 (AttrList.setdefault rest k v)

/-- `AttackedText.SPLIT_TOKEN`, the private separator joining multi-segment
input for edit purposes. -/
def SPLIT_TOKEN : List Char := ['>', '>', '>', '>']

/-- Separator of the externally visible joined text (`"\n".join(...)`). -/
def newlineSep : List Char := ['\n']

/-- The `text` property: segment values joined with a line break. -/
def AttackedText.text (t : AttackedText) : List Char :=
  joinSep newlineSep (t.textInput.map Prod.snd)

/-- The `words` field: always computed by tokenizing the joined text
(`self.words = words_from_text(self.text)` in `__init__`). -/
def AttackedText.words (t : AttackedText) : List (List Char) :=
  words_from_text t.text

/-- `np.arange n` as a list of integers. -/
def intRange (n : ℕ) : List ℤ := (List.range n).map Int.ofNat

/-- The `AttackedText.__init__` constructor: strip each segment, tokenize the
joined text, and `setdefault` the `original_index_map` (to `arange(len words)`)
and `modified_indices` (to the empty set) attack attributes.  A missing
`attack_attrs` argument is the empty dictionary `AttrList.nil`. -/
def mkAT (textInput : List (String × List Char)) (attrs : AttrList) : AttackedText :=
  let ti := textInput.map (fun p => (p.1, pyStrip p.2))
  let ws := words_from_text (joinSep newlineSep (ti.map Prod.snd))
  let a1 := attrs.setdefault "original_index_map" (.intArr (intRange ws.length))
  let a2 := a1.setdefault "modified_indices" (.intSet ∅)
  AttackedText.mk ti a2

/-- Convenience: the root snapshot built from a single raw string (`__init__`
wraps a `str` argument as `OrderedDict([("text", text_input)])`). -/
def rootAT (s : List Char) : AttackedText := mkAT [("text", s)] .nil

/-- Read an attribute expected to be a Python set of integers
(`KeyError` when missing, `TypeError` on a value of the wrong shape). -/
def getSetAttr (t : AttackedText) (k : String) : Except PyErr (Finset ℤ) :=
  match t.attrs.lookup k with
  | none => .error .keyError
  | some (.intSet s) => .ok s
  | some _ => .error .typeError

/-- Read an attribute expected to be a NumPy integer array. -/
def getArrAttr (t : AttackedText) (k : String) : Except PyErr (List ℤ) :=
  match t.attrs.lookup k with
  | none => .error .keyError
  | some (.intArr a) => .ok a
  | some _ => .error .typeError




/-- Loop state of `replace_new_words`: the rebuilt text accumulator, the
remaining unconsumed original text, and the bookkeeping being rebuilt
(`newly_modified_indices`, `modified_indices`, `original_index_map`, `new_i`). -/
structure RWState : Type where
  perturbed : List Char
  original : List Char
  newly : Finset ℤ
  modified : Finset ℤ
  idxMap : List ℤ
  newI : ℕ
deriving DecidableEq

/-- Recomputation of `modified_indices` at an edit (lines 285-293): indices
below the edit position are kept, the index equal to it is dropped, indices
above it are shifted by the word-count delta. -/
def shiftSetAt (s : Finset ℤ) (i d : ℤ) : Finset ℤ :=
  (s.filter (fun x => x < i)) ∪ ((s.filter (fun x => i < x)).image (fun x => x + d))

/-- Update of `original_index_map` at an edit (lines 296-299): on a single-word
deletion the entries equal to the edit position become `-1`; then every entry
greater than the edit position is shifted by the word-count delta. -/
def shiftMapAt (m : List ℤ) (i d : ℤ) : List ℤ :=
  let m1 := if d = -1 then m.map (fun x => if x = i then -1 else x) else m
  m1.map (fun x => if i < x then x + d else x)

/-- One iteration of the `replace_new_words` loop (lines 274-321) for word
index `i`, current word `inputWord` and replacement `advWordSeq`:
locate the word in the unconsumed original text (`str.index` raises
`ValueError` when absent), move the consumed span to the accumulator, shift
the bookkeeping when the word count changes, record newly modified indices,
and drop a doubled space at a deletion site (subscripting an empty string
there raises `IndexError`). -/
def rnwStep (i : ℕ) (inputWord advWordSeq : List Char) (st : RWState) :
    Except PyErr RWState :=
  match subFind inputWord st.original with
  | none => .error .valueError
  | some wordStart =>
      let wordEnd := wordStart + inputWord.length
      let perturbed1 := st.perturbed ++ st.original.take wordStart
      let original1 := st.original.drop wordEnd
      let advNum : ℕ := (words_from_text advWordSeq).length
      let diff : ℤ := (advNum : ℤ) - ((words_from_text inputWord).length : ℤ)
      let modified1 := if diff ≠ 0 then shiftSetAt st.modified (i : ℤ) diff else st.modified
      let idxMap1 := if diff ≠ 0 then shiftMapAt st.idxMap (i : ℤ) diff else st.idxMap
      let newIdxs : Finset ℤ :=
        ((List.range advNum).map (fun j => ((st.newI + j : ℕ) : ℤ))).toFinset
      let modified2 := if inputWord ≠ advWordSeq then modified1 ∪ newIdxs else modified1
      let newly2 := if inputWord ≠ advWordSeq then st.newly ∪ newIdxs else st.newly
      let newI2 := st.newI + advNum
      if advNum = 0 then
        if i = 0 then
          match original1 with
          | [] => .error .indexError
          | c :: rest =>
              let original2 := if c = ' ' then rest else c :: rest
              .ok ⟨perturbed1 ++ advWordSeq, original2, newly2, modified2, idxMap1, newI2⟩
        else
          match perturbed1.getLast? with
          | none => .error .indexError
          | some c =>
              let perturbed2 := if c = ' ' then perturbed1.dropLast else perturbed1
              .ok ⟨perturbed2 ++ advWordSeq, original1, newly2, modified2, idxMap1, newI2⟩
      else
        .ok ⟨perturbed1 ++ advWordSeq, original1, newly2, modified2, idxMap1, newI2⟩

/-- The `replace_new_words` loop over `enumerate(zip(self.words, new_words))`. -/
def rnwLoop : List (ℕ × List Char × List Char) → RWState → Except PyErr RWState
  | [], st => .ok st
  | (i, w, adv) :: rest, st =>
      match rnwStep i w adv st with
      | .error e => .error e
      | .ok st1 => rnwLoop rest st1

/-- `replace_new_words` (lines 246-328): rebuild the text left to right,
replacing each current word with its (possibly empty or multi-word)
replacement while updating the index bookkeeping, then split the rebuilt text
on `SPLIT_TOKEN`, re-pair with the segment names, and construct the new
`AttackedText` whose `attack_attrs` hold, in insertion order,
`newly_modified_indices`, `previous_attacked_text`, `modified_indices` and
`original_index_map`. -/
def replace_new_words (s : AttackedText) (newWords : List (List Char)) :
    Except PyErr AttackedText :=
  let originalText := joinSep SPLIT_TOKEN (s.textInput.map Prod.snd)
  match getSetAttr s "modified_indices" with
  | .error e => .error e
  | .ok m0 =>
      match getArrAttr s "original_index_map" with
      | .error e => .error e
      | .ok a0 =>
          match rnwLoop ((s.words.zip newWords).enumFrom 0) ⟨[], originalText, ∅, m0, a0, 0⟩ with
          | .error e => .error e
          | .ok stF =>
              let perturbedText := stF.perturbed ++ stF.original
              let parts := pySplit perturbedText SPLIT_TOKEN
              let newInput := (s.textInput.map Prod.fst).zip parts
              let newAttrs : AttrList :=
                .cons "newly_modified_indices" (.intSet stF.newly)
                  (.cons "previous_attacked_text" (.snap s)
                    (.cons "modified_indices" (.intSet stF.modified)
                      (.cons "original_index_map" (.intArr stF.idxMap) .nil)))
              .ok (mkAT newInput newAttrs)

/-- The assignment loop of `replace_words_at_indices` (lines 201-215): for
each `(i, new_word)` pair, raise `ValueError` when `i < 0` or
`i > len(words)`, then perform the Python list assignment `words[i] = new_word`
(which itself raises `IndexError` when `i == len(words)`). -/
def rwaiLoop : List (ℤ × List Char) → List (List Char) → Except PyErr (List (List Char))
  | [], words => .ok words
  | (i, w) :: rest, words =>
      if i < 0 ∨ (words.length : ℤ) < i then .error .valueError
      else
        match pySetElem words i w with
        | .error e => .error e
        | .ok ws2 => rwaiLoop rest ws2

/-- `replace_words_at_indices` (lines 193-216): check the two argument lists
have equal length (`ValueError` otherwise), copy `self.words`, assign each
replacement at its index, and hand the edited word list to
`replace_new_words`. -/
def replace_words_at_indices (s : AttackedText) (indices : List ℤ)
    (newWords : List (List Char)) : Except PyErr AttackedText :=
  if indices.length ≠ newWords.length then .error .valueError
  else
    match rwaiLoop (indices.zip newWords) s.words with
    | .error e => .error e
    | .ok ws => replace_new_words s ws

/-- `replace_word_at_index` (lines 218-233). -/
def replace_word_at_index (s : AttackedText) (index : ℤ) (newWord : List Char) :
    Except PyErr AttackedText :=
  replace_words_at_indices s [index] [newWord]

/-- `delete_word_at_index` (lines 235-239). -/
def delete_word_at_index (s : AttackedText) (index : ℤ) : Except PyErr AttackedText :=
  replace_word_at_index s index []

/-- `get_deletion_indices` (lines 241-244): the entries of
`original_index_map` equal to `-1` (NumPy boolean-mask selection). -/
def get_deletion_indices (t : AttackedText) : Except PyErr (List ℤ) :=
  match getArrAttr t "original_index_map" with
  | .error e => .error e
  | .ok m => .ok (m.filter (fun x => x = -1))

mutual

/-- `AttackedText.__eq__` (lines 58-78): the joined texts must be equal, and
every key of `self.attack_attrs` must be present in `other.attack_attrs` with
an equal value (NumPy arrays compared by shape then element-wise, which for
integer arrays is list equality; sets compared extensionally; a
`previous_attacked_text` value compared recursively by `__eq__`). -/
def pyEq : AttackedText → AttackedText → Bool
  | .mk ti aas, b =>
      decide (joinSep newlineSep (ti.map Prod.snd) = b.text) && attrsLeq aas b.attrs

/-- The key loop of `__eq__`: every key of the first dictionary is present in
the second with an equal value. -/
def attrsLeq : AttrList → AttrList → Bool
  | .nil, _ => true
  | .cons k v rest, other =>
      (match other.lookup k with
       | none => false
       | some w => attrValEq v w) && attrsLeq rest other

/-- Comparison of two attribute values as `__eq__` performs it. -/
def attrValEq : AttrValue → AttrValue → Bool
  | .intArr a, w =>
      match w with
      | .intArr b => decide (a = b)
      | _ => false
  | .intSet s, w =>
      match w with
      | .intSet s2 => decide (s = s2)
      | _ => false
  | .intV n, w =>
      match w with
      | .intV m => decide (n = m)
      | _ => false
  | .snap a, w =>
      match w with
      | .snap b => pyEq a b
      | _ => false

end

/-- The scanning loop of `first_word_diff` (lines 139-142), iterating two word
lists in lockstep up to the shorter length and returning `w1` at the first
difference. -/
def fwdGo (w1 : List (List Char)) : List (List Char) → List (List Char) →
    Option (List (List Char))
  | [], _ => none
  | _, [] => none
  | x :: xs, y :: ys => if x ≠ y then some w1 else fwdGo w1 xs ys

/-- `first_word_diff` (lines 134-142): on the first index of the overlapping
prefix where the two word sequences differ it returns `self.words` (the whole
list); with no difference it returns `None`. -/
def first_word_diff (a b : AttackedText) : Option (List (List Char)) :=
  fwdGo a.words a.words b.words

/-- The start/end word indices chosen by `text_window_around_index`
(lines 98-108), with the Python float `half_size = (window_size - 1) / 2.0`
modelled exactly as a rational. -/
def window_bounds (length index windowSize : ℤ) : ℤ × ℤ :=
  let halfSize : ℚ := ((windowSize : ℚ) - 1) / 2
  if (index : ℚ) - halfSize < 0 then
    (0, min (windowSize - 1) (length - 1))
  else if (length : ℚ) ≤ (index : ℚ) + halfSize then
    (max 0 (length - windowSize), length - 1)
  else
    (index - Int.ceil halfSize, index + Int.floor halfSize)

/-- The cursor loop of `_text_index_of_word_index` (lines 118-120): repeated
case-insensitive `str.find`, each search starting at the previous cursor. -/
def text_index_go (lowerText : List Char) : List (List Char) → ℤ → ℤ
  | [], look => look
  | w :: rest, look => text_index_go lowerText rest (pyFindFrom lowerText (lowerLC w) look)

/-- `_text_index_of_word_index` (lines 113-121): the character index of word
`i` in `self.text`, found by sequentially locating `words[: i + 1]` in the
lowercased text. -/
def text_index_of_word_index (t : AttackedText) (i : ℤ) : ℤ :=
  text_index_go (lowerLC t.text) (pySliceList t.words 0 (i + 1)) 0

/-- `text_window_around_index` (lines 96-111): the substring of the joined
text from the start of the window's first word to the end of its last word
(Python subscription `self.words[end]` raises `IndexError` when out of
range). -/
def text_window_around_index (t : AttackedText) (index windowSize : ℤ) :
    Except PyErr (List Char) :=
  match pyGetElem t.words (window_bounds (t.words.length : ℤ) index windowSize).2 with
  | .error e => .error e
  | .ok endWord =>
      .ok (pySliceList t.text
        (text_index_of_word_index t (window_bounds (t.words.length : ℤ) index windowSize).1)
        (text_index_of_word_index t (window_bounds (t.words.length : ℤ) index windowSize).2 +
          (endWord.length : ℤ)))

/-!
Store-passing model of the same two mutating operations, used to state the
atomicity claim: Python objects that the source code can mutate in place
(NumPy arrays, sets, word lists) live in a store of heap objects, references
are store indices, `.copy()` allocates a fresh object, and every in-place
update is an explicit store write.  Strings and integers are immutable in
Python and stay pure values.
-/

/-- A heap object: a NumPy integer array, a Python set of integers, or a
Python list of words. -/
inductive PObj : Type where
  | arr (a : List ℤ) : PObj
  | iset (s : Finset ℤ) : PObj
  | wl (ws : List (List Char)) : PObj
deriving DecidableEq

/-- The heap: allocation appends at the end, references are list indices. -/
abbrev Store := List PObj

/-- A snapshot as seen by the store model: immutable segment strings plus
references to its mutable `words` list, `original_index_map` array and
`modified_indices` set. -/
structure ATRef : Type where
  segs : List (String × List Char)
  wordsRef : ℕ
  mapRef : ℕ
  modRef : ℕ
deriving DecidableEq

/-- Loop state of the store-passing `replace_new_words`: references to the
objects currently bound to `new_attack_attrs["original_index_map"]` and
`new_attack_attrs["modified_indices"]`, plus the pure loop variables. -/
structure LoopSt : Type where
  mapRef : ℕ
  modRef : ℕ
  perturbed : List Char
  original : List Char
  newly : Finset ℤ
  newI : ℕ
deriving DecidableEq

/-- The word-count-shift block (lines 282-300) in the store model: when the
word count changes, read the set bound to `new_attack_attrs["modified_indices"]`,
build the shifted set as a fresh object and rebind, then copy the array bound
to `new_attack_attrs["original_index_map"]`, shift it, and rebind.  Returns
the new (map, modified) references. -/
def shiftRefsSt (i : ℕ) (diff : ℤ) (modRef mapRef : ℕ) (st : Store) :
    Store × Except PyErr (ℕ × ℕ) :=
  if diff ≠ 0 then
    match st.get? modRef with
    | some (.iset m) =>
        let st1 := st ++ [.iset (shiftSetAt m (i : ℤ) diff)]
        match st1.get? mapRef with
        | some (.arr a) =>
            (st1 ++ [.arr (shiftMapAt a (i : ℤ) diff)], .ok (st1.length, st.length))
        | _ => (st1, .error .typeError)
    | _ => (st, .error .typeError)
  else (st, .ok (mapRef, modRef))

/-- The `new_i` bookkeeping loop (lines 302-306) in the store model: when the
word changed and contributes at least one word, add the new indices to the
bound `modified_indices` set in place and to the pure `newly` set. -/
def addIdxsSt (w adv : List Char) (advNum : ℕ) (newIdxs newly : Finset ℤ)
    (modRef : ℕ) (st : Store) : Store × Except PyErr (Finset ℤ) :=
  if w ≠ adv ∧ 0 < advNum then
    match st.get? modRef with
    | some (.iset m) => (st.set modRef (.iset (m ∪ newIdxs)), .ok (newly ∪ newIdxs))
    | _ => (st, .error .typeError)
  else (st, .ok newly)

/-- One iteration of the `replace_new_words` loop (lines 274-321) in the
store model. -/
def rnwStepSt (i : ℕ) (inputWord advWordSeq : List Char) (ls : LoopSt)
    (st : Store) : Store × Except PyErr LoopSt :=
  match subFind inputWord ls.original with
  | none => (st, .error .valueError)
  | some wordStart =>
      let wordEnd := wordStart + inputWord.length
      let perturbed1 := ls.perturbed ++ ls.original.take wordStart
      let original1 := ls.original.drop wordEnd
      let advNum : ℕ := (words_from_text advWordSeq).length
      let diff : ℤ := (advNum : ℤ) - ((words_from_text inputWord).length : ℤ)
      match shiftRefsSt i diff ls.modRef ls.mapRef st with
      | (st2, .error e) => (st2, .error e)
      | (st2, .ok (mapRef1, modRef1)) =>
          let newIdxs : Finset ℤ :=
            ((List.range advNum).map (fun j => ((ls.newI + j : ℕ) : ℤ))).toFinset
          match addIdxsSt inputWord advWordSeq advNum newIdxs ls.newly modRef1 st2 with
          | (st3, .error e) => (st3, .error e)
          | (st3, .ok newly2) =>
              let newI2 := ls.newI + advNum
              if advNum = 0 then
                if i = 0 then
                  match original1 with
                  | [] => (st3, .error .indexError)
                  | c :: rest =>
                      let original2 := if c = ' ' then rest else c :: rest
                      (st3, .ok ⟨mapRef1, modRef1, perturbed1 ++ advWordSeq, original2,
                        newly2, newI2⟩)
                else
                  match perturbed1.getLast? with
                  | none => (st3, .error .indexError)
                  | some c =>
                      let perturbed2 := if c = ' ' then perturbed1.dropLast else perturbed1
                      (st3, .ok ⟨mapRef1, modRef1, perturbed2 ++ advWordSeq, original1,
                        newly2, newI2⟩)
              else
                (st3, .ok ⟨mapRef1, modRef1, perturbed1 ++ advWordSeq, original1,
                  newly2, newI2⟩)

/-- The store-passing `replace_new_words` loop. -/
def rnwLoopSt : List (ℕ × List Char × List Char) → LoopSt → Store →
    Store × Except PyErr LoopSt
  | [], ls, st => (st, .ok ls)
  | (i, w, adv) :: rest, ls, st =>
      match rnwStepSt i w adv ls st with
      | (st1, .error e) => (st1, .error e)
      | (st1, .ok ls1) => rnwLoopSt rest ls1 st1

/-- Store-passing `replace_new_words`: copy the input snapshot's
`modified_indices` set and `original_index_map` array into fresh objects
(lines 265-270), run the rewrite loop, and build the result snapshot (whose
constructor tokenizes the new text into a fresh words list). -/
def replace_new_words_st (s : ATRef) (newWords : List (List Char)) (st : Store) :
    Store × Except PyErr ATRef :=
  let originalText := joinSep SPLIT_TOKEN (s.segs.map Prod.snd)
  match st.get? s.modRef with
  | some (.iset m0) =>
      let st1 := st ++ [.iset m0]
      let modRef0 := st.length
      match st1.get? s.mapRef with
      | some (.arr a0) =>
          let st2 := st1 ++ [.arr a0]
          let mapRef0 := st1.length
          match st2.get? s.wordsRef with
          | some (.wl ws) =>
              match rnwLoopSt ((ws.zip newWords).enumFrom 0)
                  ⟨mapRef0, modRef0, [], originalText, ∅, 0⟩ st2 with
              | (st3, .error e) => (st3, .error e)
              | (st3, .ok lsF) =>
                  let perturbedText := lsF.perturbed ++ lsF.original
                  let parts := pySplit perturbedText SPLIT_TOKEN
                  let newSegs := ((s.segs.map Prod.fst).zip parts).map
                    (fun p => (p.1, pyStrip p.2))
                  let newWords2 := words_from_text (joinSep newlineSep (newSegs.map Prod.snd))
                  (st3 ++ [.wl newWords2],
                   .ok ⟨newSegs, st3.length, lsF.mapRef, lsF.modRef⟩)
          | _ => (st2, .error .typeError)
      | _ => (st1, .error .typeError)
  | _ => (st, .error .typeError)

/-- The assignment loop of the store-passing `replace_words_at_indices`,
mutating the freshly copied words list through its reference. -/
def rwaiLoopSt : List (ℤ × List Char) → ℕ → Store → Store × Except PyErr Unit
  | [], _, st => (st, .ok ())
  | (i, w) :: rest, wref, st =>
      match st.get? wref with
      | some (.wl ws) =>
          if i < 0 ∨ (ws.length : ℤ) < i then (st, .error .valueError)
          else
            match pySetElem ws i w with
            | .error e => (st, .error e)
            | .ok ws2 => rwaiLoopSt rest wref (st.set wref (.wl ws2))
      | _ => (st, .error .typeError)

/-- Store-passing `replace_words_at_indices`: length check, copy of
`self.words` into a fresh list object (line 200), in-place assignments on the
copy, then `replace_new_words` on the edited copy. -/
def replace_words_at_indices_st (s : ATRef) (indices : List ℤ)
    (newWords : List (List Char)) (st : Store) : Store × Except PyErr ATRef :=
  if indices.length ≠ newWords.length then (st, .error .valueError)
  else
    match st.get? s.wordsRef with
    | some (.wl ws) =>
        let st1 := st ++ [.wl ws]
        let wref := st.length
        match rwaiLoopSt (indices.zip newWords) wref st1 with
        | (st2, .error e) => (st2, .error e)
        | (st2, .ok _) =>
            match st2.get? wref with
            | some (.wl edited) => replace_new_words_st s edited st2
            | _ => (st2, .error .typeError)
    | _ => (st, .error .typeError)

/-- The entries of an attribute dictionary, in insertion order. -/
def AttrList.toList : AttrList → List (String × AttrValue)
  | .nil => []
  | .cons k v rest => (k, v) :: AttrList.toList rest

/-- The final store extends `st` without touching any reference below `n`. -/
def ExtBelow (n : ℕ) (st st2 : Store) : Prop :=
  n ≤ st2.length ∧ ∀ r, r < n → st2.get? r = st.get? r

/-- Every character of `l` fails `isWordChar`. -/
def AllNonWord (l : List Char) : Prop := ∀ c ∈ l, isWordChar c = false

/-- Every character of `l` satisfies `isWordChar`. -/
def AllWord (l : List Char) : Prop := ∀ c ∈ l, isWordChar c = true

/-- The head of `l`, when it exists, fails `isWordChar`. -/
def HeadNonWord (l : List Char) : Prop := ∀ c, l.head? = some c → isWordChar c = false

theorem wft_aux_nonword_pre {junk : List Char} (h : AllNonWord junk) (t : List Char) :
    wft_aux [] (junk ++ t) = wft_aux [] t := by
  induction junk with
  | nil => rfl
  | cons c cs ih =>
      have hc : isWordChar c = false := h c (List.mem_cons_self ..)
      have hcs : AllNonWord cs := fun x hx => h x (List.mem_cons_of_mem _ hx)
      simp [wft_aux, hc, ih hcs]

theorem wft_aux_word_run {w : List Char} (h : AllWord w) :
    ∀ (acc t : List Char), wft_aux acc (w ++ t) = wft_aux (w.reverse ++ acc) t := by
  induction w with
  | nil => intro acc t; simp
  | cons c cs ih =>
      intro acc t
      have hc : isWordChar c = true := h c (List.mem_cons_self ..)
      have hcs : AllWord cs := fun x hx => h x (List.mem_cons_of_mem _ hx)
      simp only [List.cons_append, wft_aux, hc, if_true, List.append_eq]
      rw [ih hcs (c :: acc) t]
      simp [List.append_assoc]

theorem wft_aux_flush {acc : List Char} (hacc : acc ≠ []) {t : List Char}
    (ht : HeadNonWord t) : wft_aux acc t = acc.reverse :: wft_aux [] t := by
  cases t with
  | nil => simp [wft_aux, hacc]
  | cons c cs =>
      have hc : isWordChar c = false := ht c rfl
      simp [wft_aux, hc, hacc]

theorem wft_word {w : List Char} (hne : w ≠ []) (h : AllWord w) :
    words_from_text w = [w] := by
  have h1 : wft_aux [] (w ++ []) = wft_aux (w.reverse ++ []) [] := wft_aux_word_run h [] []
  simp only [List.append_nil] at h1
  rw [words_from_text, h1]
  simp [wft_aux, hne]

theorem dropWhile_head_false {α : Type} {p : α → Bool} :
    ∀ {l : List α} {c : α} {cs : List α}, l.dropWhile p = c :: cs → p c = false := by
  intro l
  induction l with
  | nil => intro c cs h; simp [List.dropWhile] at h
  | cons a as ih =>
      intro c cs h
      by_cases hp : p a
      · rw [List.dropWhile_cons_of_pos hp] at h
        exact ih h
      · rw [List.dropWhile_cons_of_neg hp] at h
        cases h
        simpa using hp

theorem dropWhile_of_head_false {α : Type} {p : α → Bool} {l : List α}
    (h : ∀ c, l.head? = some c → p c = false) : l.dropWhile p = l := by
  cases l with
  | nil => rfl
  | cons a as =>
      have := h a rfl
      rw [List.dropWhile_cons_of_neg (by simp [this])]

theorem wft_decomp {t w : List Char} {ws : List (List Char)}
    (h : words_from_text t = w :: ws) :
    ∃ junk rest, t = junk ++ (w ++ rest) ∧ AllNonWord junk ∧ w ≠ [] ∧ AllWord w ∧
      HeadNonWord rest ∧ words_from_text rest = ws := by
  have hsplit : t.takeWhile (fun c => !isWordChar c) ++ t.dropWhile (fun c => !isWordChar c)
      = t := by apply List.takeWhile_append_dropWhile
  have hjunk : AllNonWord (t.takeWhile (fun c => !isWordChar c)) := by
    intro c hc
    have := List.mem_takeWhile_imp hc
    simpa using this
  have hwft : words_from_text t = wft_aux [] (t.dropWhile (fun c => !isWordChar c)) := by
    rw [words_from_text]
    conv_lhs => rw [← hsplit]
    exact wft_aux_nonword_pre hjunk _
  cases ht1e : t.dropWhile (fun c => !isWordChar c) with
  | nil =>
      rw [hwft, ht1e] at h
      simp [wft_aux] at h
  | cons c cs =>
      have hc : isWordChar c = true := by
        have := dropWhile_head_false ht1e
        simpa using this
      have hcs : cs.takeWhile isWordChar ++ cs.dropWhile isWordChar = cs := by
        apply List.takeWhile_append_dropWhile
      have htw : AllWord (cs.takeWhile isWordChar) := fun x hx => List.mem_takeWhile_imp hx
      have hdw : HeadNonWord (cs.dropWhile isWordChar) := by
        intro x hx
        cases hdwe : cs.dropWhile isWordChar with
        | nil => rw [hdwe] at hx; simp at hx
        | cons d ds =>
            rw [hdwe] at hx
            simp only [List.head?_cons, Option.some.injEq] at hx
            subst hx
            exact dropWhile_head_false hdwe
      have hcompute : wft_aux [] (c :: cs) =
          (c :: cs.takeWhile isWordChar) :: words_from_text (cs.dropWhile isWordChar) := by
        have e1 : wft_aux [] (c :: cs) = wft_aux [c] cs := by simp [wft_aux, hc]
        rw [e1]
        conv_lhs => rw [← hcs]
        rw [wft_aux_word_run htw [c] (cs.dropWhile isWordChar)]
        rw [wft_aux_flush (by simp) hdw]
        simp [words_from_text]
      rw [hwft, ht1e, hcompute] at h
      rw [List.cons_eq_cons] at h
      obtain ⟨hw, hws⟩ := h
      refine ⟨t.takeWhile (fun c => !isWordChar c), cs.dropWhile isWordChar, ?_, hjunk,
        by simp [← hw], ?_, hdw, hws⟩
      · conv_lhs => rw [← hsplit]
        rw [ht1e, ← hw]
        rw [List.cons_append, hcs]
      · rw [← hw]
        intro x hx
        rcases List.mem_cons.mp hx with rfl | hx
        · exact hc
        · exact htw x hx

theorem wft_mem_wf : ∀ {ws : List (List Char)} {t : List Char},
    words_from_text t = ws → ∀ w ∈ ws, w ≠ [] ∧ AllWord w := by
  intro ws
  induction ws with
  | nil => intro t _ w hw; simp at hw
  | cons w ws ih =>
      intro t h x hx
      obtain ⟨junk, rest, _, _, hne, hword, _, hrest⟩ := wft_decomp h
      rcases List.mem_cons.mp hx with rfl | hx
      · exact ⟨hne, hword⟩
      · exact ih hrest x hx

theorem isPrefixOf_append_self : ∀ (w r : List Char), w.isPrefixOf (w ++ r) = true := by
  intro w r
  induction w with
  | nil => simp [List.isPrefixOf]
  | cons c cs ih => simp [List.isPrefixOf, ih]

theorem subFind_decomp {w : List Char} (hne : w ≠ []) (hword : AllWord w) :
    ∀ {junk : List Char}, AllNonWord junk → ∀ (rest : List Char),
    subFind w (junk ++ (w ++ rest)) = some junk.length := by
  intro junk
  induction junk with
  | nil =>
      intro _ rest
      cases w with
      | nil => exact absurd rfl hne
      | cons c w2 =>
          simp [subFind, isPrefixOf_append_self]
  | cons j js ih =>
      intro hjunk rest
      have hj : isWordChar j = false := hjunk j (List.mem_cons_self ..)
      have hjs : AllNonWord js := fun x hx => hjunk x (List.mem_cons_of_mem _ hx)
      cases w with
      | nil => exact absurd rfl hne
      | cons c w2 =>
          have hc : isWordChar c = true := hword c (List.mem_cons_self ..)
          have hcj : (c == j) = false := by
            simp only [beq_eq_false_iff_ne, ne_eq]
            intro h
            rw [h, hj] at hc
            exact Bool.false_ne_true hc
          have h2 := ih hjs rest
          rw [List.cons_append] at h2
          simp only [List.cons_append, subFind, List.isPrefixOf, hcj, Bool.false_and,
            Bool.false_eq_true, if_false, List.append_eq]
          rw [h2]
          simp

theorem wft_aux_trailing {c : Char} (hc : isWordChar c = false) :
    ∀ (a acc : List Char), wft_aux acc (a ++ [c]) = wft_aux acc a := by
  intro a
  induction a with
  | nil =>
      intro acc
      by_cases hacc : acc = []
      · subst hacc; simp [wft_aux, hc]
      · simp [wft_aux, hc, hacc]
  | cons d ds ih =>
      intro acc
      by_cases hd : isWordChar d
      · simp [wft_aux, hd, ih]
      · by_cases hacc : acc = []
        · subst hacc; simp [wft_aux, hd, ih]
        · simp [wft_aux, hd, hacc, ih]

theorem wft_aux_break {c : Char} (hc : isWordChar c = false) :
    ∀ (a acc r : List Char),
    wft_aux acc (a ++ c :: r) = wft_aux acc (a ++ [c]) ++ wft_aux [] r := by
  intro a
  induction a with
  | nil =>
      intro acc r
      by_cases hacc : acc = []
      · subst hacc; simp [wft_aux, hc]
      · simp [wft_aux, hc, hacc]
  | cons d ds ih =>
      intro acc r
      by_cases hd : isWordChar d
      · simp only [List.cons_append, List.append_eq, wft_aux, hd, if_true]
        rw [ih]
      · by_cases hacc : acc = []
        · subst hacc
          simp only [List.cons_append, List.append_eq, wft_aux, hd]
          simp only [Bool.false_eq_true, if_false, if_true]
          rw [ih]
        · simp only [List.cons_append, List.append_eq, wft_aux, hd]
          simp only [Bool.false_eq_true, if_false, hacc, if_true]
          rw [ih]
          simp [List.cons_append]

theorem wft_append_sep {sep : List Char} (hne : sep ≠ []) (hsep : AllNonWord sep)
    (a b : List Char) :
    words_from_text (a ++ sep ++ b) = words_from_text a ++ words_from_text b := by
  cases sep with
  | nil => exact absurd rfl hne
  | cons c sep2 =>
      have hc : isWordChar c = false := hsep c (List.mem_cons_self ..)
      have hsep2 : AllNonWord sep2 := fun x hx => hsep x (List.mem_cons_of_mem _ hx)
      have e1 : a ++ (c :: sep2) ++ b = a ++ c :: (sep2 ++ b) := by simp
      rw [words_from_text, e1, wft_aux_break hc a [] (sep2 ++ b)]
      rw [wft_aux_trailing hc a []]
      rw [wft_aux_nonword_pre hsep2 b]
      rfl

theorem wft_joinSep {sep : List Char} (hne : sep ≠ []) (hsep : AllNonWord sep) :
    ∀ segs : List (List Char),
    words_from_text (joinSep sep segs) = (segs.map words_from_text).join := by
  intro segs
  induction segs with
  | nil => rfl
  | cons x rest ih =>
      cases rest with
      | nil => simp [joinSep, words_from_text]
      | cons y r2 =>
          rw [joinSep, wft_append_sep hne hsep x (joinSep sep (y :: r2)), ih]
          simp

theorem wft_text_eq_wft_token (segs : List (List Char)) :
    words_from_text (joinSep newlineSep segs) =
      words_from_text (joinSep SPLIT_TOKEN segs) := by
  rw [@wft_joinSep newlineSep (by decide) (by intro c hc; fin_cases hc <;> rfl) segs,
      @wft_joinSep SPLIT_TOKEN (by decide) (by intro c hc; fin_cases hc <;> rfl) segs]

theorem getLast?_dropWhile {α : Type} {p : α → Bool} :
    ∀ (l : List α), l.dropWhile p ≠ [] → (l.dropWhile p).getLast? = l.getLast? := by
  intro l
  induction l with
  | nil => intro h; exact absurd rfl h
  | cons a as ih =>
      intro h
      by_cases hp : p a
      · rw [List.dropWhile_cons_of_pos hp] at h ⊢
        rw [ih h]
        have has : as ≠ [] := by
          intro he
          rw [he] at h
          simp [List.dropWhile] at h
        cases as with
        | nil => exact absurd rfl has
        | cons b bs => simp [List.getLast?_cons_cons]
      · rw [List.dropWhile_cons_of_neg hp]

theorem pyStrip_idem (v : List Char) : pyStrip (pyStrip v) = pyStrip v := by
  have e2 : ((v.dropWhile Char.isWhitespace).reverse.dropWhile Char.isWhitespace).dropWhile
      Char.isWhitespace =
      (v.dropWhile Char.isWhitespace).reverse.dropWhile Char.isWhitespace := by
    apply dropWhile_of_head_false
    intro c hch
    cases he : (v.dropWhile Char.isWhitespace).reverse.dropWhile Char.isWhitespace with
    | nil => rw [he] at hch; simp at hch
    | cons d ds =>
        rw [he] at hch
        simp only [List.head?_cons, Option.some.injEq] at hch
        subst hch
        exact dropWhile_head_false he
  have e1 : (((v.dropWhile Char.isWhitespace).reverse.dropWhile
      Char.isWhitespace).reverse).dropWhile Char.isWhitespace =
      ((v.dropWhile Char.isWhitespace).reverse.dropWhile Char.isWhitespace).reverse := by
    apply dropWhile_of_head_false
    intro c hch
    rw [List.head?_reverse] at hch
    have hBne : (v.dropWhile Char.isWhitespace).reverse.dropWhile Char.isWhitespace ≠ [] := by
      intro he
      rw [he] at hch
      simp at hch
    rw [getLast?_dropWhile _ hBne, List.getLast?_reverse] at hch
    cases hAe : v.dropWhile Char.isWhitespace with
    | nil => rw [hAe] at hch; simp at hch
    | cons d ds =>
        rw [hAe] at hch
        simp only [List.head?_cons, Option.some.injEq] at hch
        subst hch
        exact dropWhile_head_false hAe
  show pyStrip (pyStrip v) = pyStrip v
  unfold pyStrip
  rw [e1, List.reverse_reverse, e2]

theorem rnwStep_id {t w : List Char} {ws : List (List Char)}
    (hw : words_from_text t = w :: ws) (st : RWState) (hor : st.original = t) (i : ℕ) :
    ∃ junk rest, t = junk ++ (w ++ rest) ∧ words_from_text rest = ws ∧
      rnwStep i w w st =
        .ok ⟨st.perturbed ++ (junk ++ w), rest, st.newly, st.modified, st.idxMap,
          st.newI + 1⟩ := by
  obtain ⟨junk, rest, heq, hjunk, hne, hword, hhead, hrest⟩ := wft_decomp hw
  refine ⟨junk, rest, heq, hrest, ?_⟩
  have hfind : subFind w st.original = some junk.length := by
    rw [hor, heq]
    exact subFind_decomp hne hword hjunk rest
  have htake : t.take junk.length = junk := by
    rw [heq]
    exact List.take_left junk (w ++ rest)
  have hdrop : t.drop (junk.length + w.length) = rest := by
    rw [heq, ← List.append_assoc, ← List.length_append]
    exact List.drop_left _ _
  have hwft1 : words_from_text w = [w] := wft_word hne hword
  rw [rnwStep, hfind]
  simp only [hor, htake, hdrop, hwft1, List.length_cons, List.length_nil]
  simp [List.append_assoc]

theorem rnwLoop_id : ∀ (ws : List (List Char)) (t : List Char) (st : RWState) (n : ℕ),
    words_from_text t = ws → st.original = t →
    ∃ st', rnwLoop ((ws.zip ws).enumFrom n) st = .ok st' ∧
      st'.perturbed ++ st'.original = st.perturbed ++ t ∧
      st'.newly = st.newly ∧ st'.modified = st.modified ∧ st'.idxMap = st.idxMap := by
  intro ws
  induction ws with
  | nil =>
      intro t st n hw hor
      refine ⟨st, rfl, ?_, rfl, rfl, rfl⟩
      rw [hor]
  | cons w ws2 ih =>
      intro t st n hw hor
      obtain ⟨junk, rest, heq, hrest, hstep⟩ := rnwStep_id hw st hor n
      obtain ⟨st', hloop, hpert, h1, h2, h3⟩ := ih rest
        ⟨st.perturbed ++ (junk ++ w), rest, st.newly, st.modified, st.idxMap, st.newI + 1⟩
        (n + 1) hrest rfl
      refine ⟨st', ?_, ?_, h1, h2, h3⟩
      · simp only [List.zip_cons_cons, List.enumFrom, rnwLoop, hstep]
        exact hloop
      · rw [hpert, heq]
        simp [List.append_assoc]

theorem setdefault_of_lookup : ∀ {l : AttrList} {k : String} {v w : AttrValue},
    l.lookup k = some v → l.setdefault k w = l
  | .nil, k, v, w, h => by simp [AttrList.lookup] at h
  | .cons k2 v2 rest, k, v, w, h => by
      rw [AttrList.setdefault]
      by_cases hk : k2 = k
      · simp [hk]
      · rw [AttrList.lookup, if_neg hk] at h
        simp [hk, setdefault_of_lookup h]

theorem zip_map_fst_snd {α β : Type} : ∀ l : List (α × β),
    (l.map Prod.fst).zip (l.map Prod.snd) = l := by
  intro l
  induction l with
  | nil => rfl
  | cons p r ih => simp [ih]

theorem map_strip_strip (ti : List (String × List Char)) :
    (ti.map (fun p => (p.1, pyStrip p.2))).map (fun p => (p.1, pyStrip p.2)) =
      ti.map (fun p => (p.1, pyStrip p.2)) := by
  induction ti with
  | nil => rfl
  | cons p r ih => simp [pyStrip_idem, ih]

theorem replace_new_words_eq {s : AttackedText} {nw : List (List Char)}
    {m : Finset ℤ} {a : List ℤ} {stF : RWState}
    (h1 : getSetAttr s "modified_indices" = .ok m)
    (h2 : getArrAttr s "original_index_map" = .ok a)
    (h3 : rnwLoop ((s.words.zip nw).enumFrom 0)
      ⟨[], joinSep SPLIT_TOKEN (s.textInput.map Prod.snd), ∅, m, a, 0⟩ = .ok stF) :
    replace_new_words s nw = .ok (mkAT
      ((s.textInput.map Prod.fst).zip (pySplit (stF.perturbed ++ stF.original) SPLIT_TOKEN))
      (.cons "newly_modified_indices" (.intSet stF.newly)
        (.cons "previous_attacked_text" (.snap s)
          (.cons "modified_indices" (.intSet stF.modified)
            (.cons "original_index_map" (.intArr stF.idxMap) .nil))))) := by
  rw [replace_new_words]
  simp only [h1, h2, h3]

/-- C4 (amended): for every snapshot constructed by the `AttackedText`
constructor whose segment values are recovered exactly by splitting their
`SPLIT_TOKEN`-join back on `SPLIT_TOKEN` (in particular any single-segment
snapshot whose text does not contain `">>>>"`), rewriting every word with
itself succeeds and produces a snapshot with an equal joined text and an
unchanged `modified_indices` set. -/
theorem C4_identity_rewrite (ti : List (String × List Char)) (attrs : AttrList)
    (m : Finset ℤ) (a : List ℤ)
    (hm : (mkAT ti attrs).attrs.lookup "modified_indices" = some (.intSet m))
    (ha : (mkAT ti attrs).attrs.lookup "original_index_map" = some (.intArr a))
    (hsplit : pySplit (joinSep SPLIT_TOKEN ((mkAT ti attrs).textInput.map Prod.snd))
        SPLIT_TOKEN = (mkAT ti attrs).textInput.map Prod.snd) :
    ∃ t, replace_new_words (mkAT ti attrs) ((mkAT ti attrs).words) = .ok t ∧
      t.text = (mkAT ti attrs).text ∧
      t.attrs.lookup "modified_indices" = some (.intSet m) := by
  have hgset : getSetAttr (mkAT ti attrs) "modified_indices" = .ok m := by
    rw [getSetAttr, hm]
  have hgarr : getArrAttr (mkAT ti attrs) "original_index_map" = .ok a := by
    rw [getArrAttr, ha]
  have hwords : words_from_text
      (joinSep SPLIT_TOKEN ((mkAT ti attrs).textInput.map Prod.snd)) =
      (mkAT ti attrs).words := by
    rw [AttackedText.words, AttackedText.text]
    exact (wft_text_eq_wft_token _).symm
  obtain ⟨stF, hloop, hpert, hnewly, hmod, hmap⟩ := rnwLoop_id ((mkAT ti attrs).words)
    (joinSep SPLIT_TOKEN ((mkAT ti attrs).textInput.map Prod.snd))
    ⟨[], joinSep SPLIT_TOKEN ((mkAT ti attrs).textInput.map Prod.snd), ∅, m, a, 0⟩
    0 hwords rfl
  simp only [List.nil_append] at hpert
  rw [replace_new_words_eq hgset hgarr hloop]
  refine ⟨_, rfl, ?_, ?_⟩
  · -- text equality
    rw [hpert, hsplit]
    rw [AttackedText.text, AttackedText.text]
    congr 1
    show (mkAT (((mkAT ti attrs).textInput.map Prod.fst).zip
        ((mkAT ti attrs).textInput.map Prod.snd)) _).textInput.map Prod.snd =
      (mkAT ti attrs).textInput.map Prod.snd
    rw [zip_map_fst_snd]
    show ((mkAT ti attrs).textInput.map (fun p => (p.1, pyStrip p.2))).map Prod.snd =
      (mkAT ti attrs).textInput.map Prod.snd
    have hti : (mkAT ti attrs).textInput = ti.map (fun p => (p.1, pyStrip p.2)) := rfl
    rw [hti, map_strip_strip]
  · -- modified_indices preserved
    rw [hnewly, hmod, hmap]
    show (AttackedText.mk _ (((AttrList.cons "newly_modified_indices" (.intSet ∅)
      (.cons "previous_attacked_text" (.snap (mkAT ti attrs))
        (.cons "modified_indices" (.intSet m)
          (.cons "original_index_map" (.intArr a) .nil)))).setdefault
            "original_index_map" _).setdefault "modified_indices" _)).attrs.lookup
              "modified_indices" = some (.intSet m)
    have hl1 : (AttrList.cons "newly_modified_indices" (.intSet ∅)
        (.cons "previous_attacked_text" (.snap (mkAT ti attrs))
          (.cons "modified_indices" (.intSet m)
            (.cons "original_index_map" (.intArr a) .nil)))).lookup "original_index_map" =
        some (.intArr a) := by simp [AttrList.lookup]
    rw [setdefault_of_lookup hl1]
    have hl2 : (AttrList.cons "newly_modified_indices" (.intSet ∅)
        (.cons "previous_attacked_text" (.snap (mkAT ti attrs))
          (.cons "modified_indices" (.intSet m)
            (.cons "original_index_map" (.intArr a) .nil)))).lookup "modified_indices" =
        some (.intSet m) := by simp [AttrList.lookup]
    rw [setdefault_of_lookup hl2]
    exact hl2

/-- C4 counterexample: for the single-segment snapshot built from
"a >>>> b" (a text containing the private split token), rewriting every word
with itself yields the text "a", not the original text, so the claim as
stated (for every snapshot) is false. -/
theorem C4_counterexample :
    (replace_new_words (mkAT [("text", "a >>>> b".toList)] .nil)
      ((mkAT [("text", "a >>>> b".toList)] .nil).words)).map AttackedText.text =
      .ok "a".toList ∧
    (mkAT [("text", "a >>>> b".toList)] .nil).text = "a >>>> b".toList ∧
    "a".toList ≠ "a >>>> b".toList := by
  refine ⟨by decide, by decide, by decide⟩

/-- C4 witness: the amended identity-rewrite theorem applied to the root
snapshot of "The quick fox jumps.". -/
theorem C4_witness : ∃ t,
    replace_new_words (mkAT [("text", "The quick fox jumps.".toList)] .nil)
      ((mkAT [("text", "The quick fox jumps.".toList)] .nil).words) = .ok t ∧
    t.text = (mkAT [("text", "The quick fox jumps.".toList)] .nil).text ∧
    t.attrs.lookup "modified_indices" = some (.intSet ∅) :=
  C4_identity_rewrite [("text", "The quick fox jumps.".toList)] .nil ∅ [0, 1, 2, 3]
    (by rfl) (by rfl) (by decide)

/-- C2 (amended): replacing the word at index 1 of the root snapshot of
"The quick fox jumps." with "very slow" yields words
[The, very, slow, fox, jumps], `modified_indices = {1, 2}` (the new positions
of the inserted words, not index 1 alone), and
`original_index_map = [0, 1, 3, 4]`: the map sends original positions to
current positions, so the entries greater than 1 are incremented by the
word-count delta +1; it is not the length-5 sequence [0,1,1,2,3] the claim
states. -/
theorem C2_insertion :
    (replace_words_at_indices (rootAT "The quick fox jumps.".toList) [1]
      ["very slow".toList]).map AttackedText.words =
      .ok ["The".toList, "very".toList, "slow".toList, "fox".toList, "jumps".toList] ∧
    (replace_words_at_indices (rootAT "The quick fox jumps.".toList) [1]
      ["very slow".toList]).map (fun t => getSetAttr t "modified_indices") =
      .ok (.ok {1, 2}) ∧
    (replace_words_at_indices (rootAT "The quick fox jumps.".toList) [1]
      ["very slow".toList]).map (fun t => getArrAttr t "original_index_map") =
      .ok (.ok [0, 1, 3, 4]) := by
  refine ⟨by decide, by decide, by decide⟩

/-- C2 counterexample: the produced `original_index_map` is not the
[0, 1, 1, 2, 3] the claim states. -/
theorem C2_counterexample :
    (replace_words_at_indices (rootAT "The quick fox jumps.".toList) [1]
      ["very slow".toList]).map (fun t => getArrAttr t "original_index_map") ≠
      .ok (.ok [0, 1, 1, 2, 3]) := by
  decide

/-- C3: deleting the word at index 1 of the root snapshot of
"The quick fox jumps." yields the joined text "The fox jumps." and
`original_index_map = [0, -1, 1, 2]`. -/
theorem C3_deletion :
    (delete_word_at_index (rootAT "The quick fox jumps.".toList) 1).map
      AttackedText.text = .ok "The fox jumps.".toList ∧
    (delete_word_at_index (rootAT "The quick fox jumps.".toList) 1).map
      (fun t => getArrAttr t "original_index_map") = .ok (.ok [0, -1, 1, 2]) := by
  refine ⟨by decide, by decide⟩

/-- C6: the range guard of `replace_words_at_indices` checks
`i < 0 or i > len(words)` instead of `i >= len(words)`, so the in-range check
admits `i == len(words)` and the subsequent Python list assignment raises
`IndexError` (not the `ValueError` the claim and the spec's error taxonomy
require); moreover a legal in-range deletion can also raise `IndexError`
(deleting the only word of "a" subscripts an empty string). -/
theorem C6_range_guard_bug :
    (replace_words_at_indices (rootAT "The quick fox jumps.".toList) [4]
      ["slow".toList]).map (fun _ => ()) = .error .indexError ∧
    PyErr.indexError ≠ PyErr.valueError ∧
    (replace_words_at_indices (rootAT "a".toList) [0] [[]]).map (fun _ => ()) =
      .error .indexError := by
  refine ⟨by decide, by decide, by decide⟩

/-- C1 counterexample: after deleting word 1 of the root snapshot of
"The quick fox jumps.", the new snapshot has 3 words but its
`original_index_map` still has 4 entries (the map length is the root's word
count, not the current snapshot's), so `len(original_index_map) == len(words)`
fails for snapshots produced by a rewrite. -/
theorem C1_counterexample :
    (delete_word_at_index (rootAT "The quick fox jumps.".toList) 1).map
      (fun t => t.words.length) = .ok 3 ∧
    (delete_word_at_index (rootAT "The quick fox jumps.".toList) 1).map
      (fun t => (getArrAttr t "original_index_map").map List.length) =
      .ok (.ok 4) ∧
    (3 : ℕ) ≠ 4 := by
  refine ⟨by decide, by decide, by decide⟩

theorem shiftMapAt_length (m : List ℤ) (i d : ℤ) :
    (shiftMapAt m i d).length = m.length := by
  rw [shiftMapAt]
  by_cases hd : d = -1 <;> simp [hd]

theorem rnwStep_map_length {i : ℕ} {w adv : List Char} {st st' : RWState}
    (h : rnwStep i w adv st = .ok st') : st'.idxMap.length = st.idxMap.length := by
  unfold rnwStep at h
  split at h
  · exact absurd h (by simp)
  · simp only [] at h
    repeat' split at h
    all_goals first
      | exact Except.noConfusion h
      | (injection h with h2
         subst h2
         simp [shiftMapAt_length])

theorem rnwLoop_map_length : ∀ {l : List (ℕ × List Char × List Char)} {st st' : RWState},
    rnwLoop l st = .ok st' → st'.idxMap.length = st.idxMap.length := by
  intro l
  induction l with
  | nil =>
      intro st st' h
      rw [rnwLoop] at h
      cases h
      rfl
  | cons p rest ih =>
      intro st st' h
      obtain ⟨i, w, adv⟩ := p
      rw [rnwLoop] at h
      split at h
      · exact Except.noConfusion h
      · rw [ih h, rnwStep_map_length (by assumption)]

theorem mkAT_attrs_eq {ti : List (String × List Char)} {attrs : AttrList}
    {w1 w2 : AttrValue}
    (h1 : attrs.lookup "original_index_map" = some w1)
    (h2 : attrs.lookup "modified_indices" = some w2) :
    (mkAT ti attrs).attrs = attrs := by
  show (attrs.setdefault "original_index_map" _).setdefault "modified_indices" _ = attrs
  rw [setdefault_of_lookup h1, setdefault_of_lookup h2]

theorem intRange_length (n : ℕ) : (intRange n).length = n := by
  unfold intRange
  rw [List.length_map, List.length_range]

/-- C1 (amended): a root snapshot constructed with defaulted attack
attributes satisfies `len(original_index_map) == len(words)`, and
`replace_new_words` preserves the length of `original_index_map` (so a
derived snapshot's map keeps the root's word count, while its own word count
may differ after insertions or deletions). -/
theorem C1_map_length :
    (∀ ti : List (String × List Char), ∃ m : List ℤ,
      getArrAttr (mkAT ti .nil) "original_index_map" = .ok m ∧
      m.length = (mkAT ti .nil).words.length) ∧
    (∀ (s : AttackedText) (nw : List (List Char)) (t : AttackedText) (m : List ℤ),
      replace_new_words s nw = .ok t →
      getArrAttr s "original_index_map" = .ok m →
      ∃ m2 : List ℤ, getArrAttr t "original_index_map" = .ok m2 ∧
        m2.length = m.length) := by
  constructor
  · intro ti
    refine ⟨intRange ((mkAT ti .nil).words.length), ?_, intRange_length _⟩
    rfl
  · intro s nw t m h hm
    rw [replace_new_words] at h
    cases hset : getSetAttr s "modified_indices" with
    | error e => rw [hset] at h; exact Except.noConfusion h
    | ok m0 =>
        rw [hset] at h
        dsimp only at h
        cases harr2 : getArrAttr s "original_index_map" with
        | error e => rw [harr2] at h; exact Except.noConfusion h
        | ok a0 =>
            rw [harr2] at h
            dsimp only at h
            cases hloop : rnwLoop ((s.words.zip nw).enumFrom 0)
                ⟨[], joinSep SPLIT_TOKEN (s.textInput.map Prod.snd), ∅, m0, a0, 0⟩ with
            | error e => rw [hloop] at h; exact Except.noConfusion h
            | ok stF =>
                rw [hloop] at h
                dsimp only at h
                injection h with h2
                subst h2
                rw [hm] at harr2
                injection harr2 with harr3
                subst harr3
                have hl1 : (AttrList.cons "newly_modified_indices" (.intSet stF.newly)
                    (.cons "previous_attacked_text" (.snap s)
                      (.cons "modified_indices" (.intSet stF.modified)
                        (.cons "original_index_map" (.intArr stF.idxMap) .nil)))).lookup
                          "original_index_map" = some (.intArr stF.idxMap) := by
                  simp [AttrList.lookup]
                have hl2 : (AttrList.cons "newly_modified_indices" (.intSet stF.newly)
                    (.cons "previous_attacked_text" (.snap s)
                      (.cons "modified_indices" (.intSet stF.modified)
                        (.cons "original_index_map" (.intArr stF.idxMap) .nil)))).lookup
                          "modified_indices" = some (.intSet stF.modified) := by
                  simp [AttrList.lookup]
                refine ⟨stF.idxMap, ?_, rnwLoop_map_length hloop⟩
                rw [getArrAttr, mkAT_attrs_eq hl1 hl2, hl1]

set_option maxHeartbeats 2000000 in
/-- C1 witness: the amended theorem applied to the root snapshot of
"a b" and to the rewrite that deletes its word 1. -/
theorem C1_witness :
    (∃ m : List ℤ,
      getArrAttr (mkAT [("text", "a b".toList)] .nil)
        "original_index_map" = .ok m ∧
      m.length = (mkAT [("text", "a b".toList)] .nil).words.length) ∧
    (∃ m2 : List ℤ,
      getArrAttr (mkAT [("text", "a".toList)]
        (.cons "newly_modified_indices" (.intSet ∅)
          (.cons "previous_attacked_text" (.snap (rootAT "a b".toList))
            (.cons "modified_indices" (.intSet ∅)
              (.cons "original_index_map" (.intArr [0, -1]) .nil)))))
        "original_index_map" = .ok m2 ∧
      m2.length = ([0, 1] : List ℤ).length) :=
  ⟨C1_map_length.1 [("text", "a b".toList)],
   C1_map_length.2 (rootAT "a b".toList) ["a".toList, []]
     (mkAT [("text", "a".toList)]
       (.cons "newly_modified_indices" (.intSet ∅)
         (.cons "previous_attacked_text" (.snap (rootAT "a b".toList))
           (.cons "modified_indices" (.intSet ∅)
             (.cons "original_index_map" (.intArr [0, -1]) .nil)))))
     [0, 1] (by decide) (by decide)⟩

theorem fwdGo_spec (w1 : List (List Char)) :
    ∀ xs ys : List (List Char),
    (fwdGo w1 xs ys = none ↔
      ∀ i, i < min xs.length ys.length → xs.getD i [] = ys.getD i []) ∧
    ((∃ i, i < min xs.length ys.length ∧ xs.getD i [] ≠ ys.getD i []) →
      fwdGo w1 xs ys = some w1) := by
  intro xs
  induction xs with
  | nil =>
      intro ys
      constructor
      · simp [fwdGo]
      · rintro ⟨i, hi, _⟩
        simp at hi
  | cons x xs2 ih =>
      intro ys
      cases ys with
      | nil =>
          constructor
          · simp [fwdGo]
          · rintro ⟨i, hi, _⟩
            simp at hi
      | cons y ys2 =>
          by_cases hxy : x = y
          · subst hxy
            have e1 : fwdGo w1 (x :: xs2) (x :: ys2) = fwdGo w1 xs2 ys2 := by
              simp [fwdGo]
            constructor
            · rw [e1, (ih ys2).1]
              constructor
              · intro h i hi
                cases i with
                | zero => simp
                | succ j =>
                    simp only [List.getD_cons_succ]
                    exact h j (by simp at hi ⊢; omega)
              · intro h i hi
                have := h (i + 1) (by simp at hi ⊢; omega)
                simpa using this
            · rintro ⟨i, hi, hne⟩
              rw [e1]
              apply (ih ys2).2
              cases i with
              | zero => simp at hne
              | succ j =>
                  refine ⟨j, by simp at hi ⊢; omega, ?_⟩
                  simpa using hne
          · have e1 : fwdGo w1 (x :: xs2) (y :: ys2) = some w1 := by
              simp [fwdGo, hxy]
            constructor
            · rw [e1]
              constructor
              · intro h; exact absurd h (by simp)
              · intro h
                have := h 0 (by simp)
                simp at this
                exact absurd this hxy
            · intro _; exact e1

/-- C9: when the word sequences of two snapshots differ at some index of the
overlapping prefix, `first_word_diff` returns the caller's entire word list
(not the differing word, not an index); it returns `None` exactly when the
overlapping prefix has no difference. -/
theorem C9_first_word_diff (a b : AttackedText) :
    (first_word_diff a b = none ↔
      ∀ i, i < min a.words.length b.words.length →
        a.words.getD i [] = b.words.getD i []) ∧
    ((∃ i, i < min a.words.length b.words.length ∧
        a.words.getD i [] ≠ b.words.getD i []) →
      first_word_diff a b = some a.words) :=
  fwdGo_spec a.words a.words b.words

/-- C9 witness: both directions exercised on concrete snapshots. -/
theorem C9_witness :
    first_word_diff (rootAT "The quick fox jumps.".toList)
      (rootAT "The slow fox jumps.".toList) =
      some (rootAT "The quick fox jumps.".toList).words ∧
    (first_word_diff (rootAT "The quick fox jumps.".toList)
      (rootAT "The quick fox jumps.".toList) = none) :=
  ⟨(C9_first_word_diff (rootAT "The quick fox jumps.".toList)
      (rootAT "The slow fox jumps.".toList)).2 ⟨1, by decide, by decide⟩,
   (C9_first_word_diff (rootAT "The quick fox jumps.".toList)
      (rootAT "The quick fox jumps.".toList)).1.mpr (by decide)⟩

theorem attrsLeq_iff : ∀ (l other : AttrList), attrsLeq l other = true ↔
    ∀ p ∈ l.toList, ∃ w, other.lookup p.1 = some w ∧ attrValEq p.2 w = true
  | .nil, other => by simp [attrsLeq, AttrList.toList]
  | .cons k v rest, other => by
      have e : attrsLeq (.cons k v rest) other =
          ((match other.lookup k with
            | none => false
            | some w => attrValEq v w) && attrsLeq rest other) := by
        simp [attrsLeq]
      rw [e, Bool.and_eq_true, attrsLeq_iff rest other]
      cases hlk : other.lookup k with
      | none =>
          simp only [AttrList.toList, List.mem_cons, Bool.false_eq_true, false_and]
          constructor
          · intro h
            exact absurd h (by simp)
          · intro h
            obtain ⟨w2, hw2, _⟩ := h (k, v) (Or.inl rfl)
            rw [hlk] at hw2
            exact Option.noConfusion hw2
      | some w =>
          simp only [AttrList.toList, List.mem_cons]
          constructor
          · rintro ⟨hv, hrest⟩ p hp
            rcases hp with rfl | hp
            · exact ⟨w, hlk, hv⟩
            · exact hrest p hp
          · intro h
            refine ⟨?_, fun p hp => h p (Or.inr hp)⟩
            obtain ⟨w2, hw2, hval⟩ := h (k, v) (Or.inl rfl)
            rw [hlk] at hw2
            injection hw2 with hw3
            subst hw3
            exact hval

theorem pyEq_iff (a b : AttackedText) : pyEq a b = true ↔
    (a.text = b.text ∧ ∀ p ∈ a.attrs.toList,
      ∃ w, b.attrs.lookup p.1 = some w ∧ attrValEq p.2 w = true) := by
  cases a with
  | mk ti aas =>
      have e : pyEq (.mk ti aas) b =
          (decide (joinSep newlineSep (ti.map Prod.snd) = b.text) &&
            attrsLeq aas b.attrs) := by
        simp [pyEq]
      rw [e, Bool.and_eq_true, attrsLeq_iff aas b.attrs]
      simp only [decide_eq_true_eq, AttackedText.text, AttackedText.textInput,
        AttackedText.attrs]

theorem lookup_mem_toList : ∀ {l : AttrList} {k : String} {v : AttrValue},
    l.lookup k = some v → (k, v) ∈ l.toList
  | .nil, k, v, h => by simp [AttrList.lookup] at h
  | .cons k2 v2 rest, k, v, h => by
      rw [AttrList.lookup] at h
      by_cases hk : k2 = k
      · rw [if_pos hk] at h
        injection h with h2
        subst h2
        subst hk
        simp [AttrList.toList]
      · rw [if_neg hk] at h
        simp only [AttrList.toList, List.mem_cons]
        exact Or.inr (lookup_mem_toList h)

/-- C5 (amended): `a == b` holds iff the joined texts are equal and every
attribute of `a` is present in `b` with an equal value (arrays element-wise,
sets by membership, previous snapshots recursively); the check is one-sided,
so it is not symmetric when `b` carries extra attributes; in particular two
snapshots with identical text but differing `modified_indices` compare
unequal. -/
theorem C5_equality :
    (∀ a b : AttackedText, pyEq a b = true ↔
      (a.text = b.text ∧ ∀ p ∈ a.attrs.toList,
        ∃ w, b.attrs.lookup p.1 = some w ∧ attrValEq p.2 w = true)) ∧
    (∀ (a b : AttackedText) (s1 s2 : Finset ℤ),
      a.text = b.text →
      a.attrs.lookup "modified_indices" = some (.intSet s1) →
      b.attrs.lookup "modified_indices" = some (.intSet s2) →
      s1 ≠ s2 → pyEq a b = false) := by
  refine ⟨pyEq_iff, ?_⟩
  intro a b s1 s2 htext h1 h2 hne
  cases hpe : pyEq a b with
  | false => rfl
  | true =>
      obtain ⟨_, hall⟩ := (pyEq_iff a b).1 hpe
      obtain ⟨w, hw, hval⟩ := hall ("modified_indices", .intSet s1) (lookup_mem_toList h1)
      rw [h2] at hw
      injection hw with hw2
      subst hw2
      have : decide (s1 = s2) = true := by simpa [attrValEq] using hval
      exact absurd (of_decide_eq_true this) hne

/-- C5 counterexample: a snapshot without the "extra" attribute compares
equal to one carrying it, but not conversely, so the claimed
both-directions-iff and symmetry fail. -/
theorem C5_counterexample :
    pyEq (mkAT [("text", "x".toList)] .nil)
      (mkAT [("text", "x".toList)] (.cons "extra" (.intV 0) .nil)) = true ∧
    pyEq (mkAT [("text", "x".toList)] (.cons "extra" (.intV 0) .nil))
      (mkAT [("text", "x".toList)] .nil) = false ∧
    (mkAT [("text", "x".toList)] (.cons "extra" (.intV 0) .nil)).attrs.lookup "extra" =
      some (.intV 0) ∧
    (mkAT [("text", "x".toList)] .nil).attrs.lookup "extra" = none := by
  refine ⟨by decide, by decide, by decide, by decide⟩

/-- C5 witness: two snapshots with identical text "x" and modified-index
sets {0} and {1} compare unequal. -/
theorem C5_witness :
    pyEq (mkAT [("text", "x".toList)] (.cons "modified_indices" (.intSet {0}) .nil))
      (mkAT [("text", "x".toList)] (.cons "modified_indices" (.intSet {1}) .nil)) =
      false :=
  C5_equality.2 _ _ {0} {1} (by decide) (by decide) (by decide) (by decide)

theorem window_bounds_low {length index windowSize : ℤ}
    (h : 2 * index < windowSize - 1) :
    window_bounds length index windowSize = (0, min (windowSize - 1) (length - 1)) := by
  rw [window_bounds]
  have hcond : (index : ℚ) - ((windowSize : ℚ) - 1) / 2 < 0 := by
    have h2 : ((2 * index : ℤ) : ℚ) < ((windowSize - 1 : ℤ) : ℚ) := by exact_mod_cast h
    push_cast at h2
    linarith
  rw [if_pos hcond]

theorem words_four {t : AttackedText} (h : t.words.length = 4) :
    ∃ a b c d, t.words = [a, b, c, d] := by
  cases l1 : t.words with
  | nil => rw [l1] at h; simp at h
  | cons a r1 =>
      cases r1 with
      | nil => rw [l1] at h; simp at h
      | cons b r2 =>
          cases r2 with
          | nil => rw [l1] at h; simp at h
          | cons c r3 =>
              cases r3 with
              | nil => rw [l1] at h; simp at h
              | cons d r4 =>
                  cases r4 with
                  | nil => exact ⟨a, b, c, d, rfl⟩
                  | cons e r5 => rw [l1] at h; simp at h

/-- C8: when `index - (windowSize-1)/2` would be negative the word window is
`[0, windowSize-1]` clamped to the document length; on a 4-word snapshot,
`text_window_around_index` at index 0 with window size 3 returns the
substring from the start of word 0 through the end of word 2 (never a
negative start), which on the root snapshot of "The quick fox jumps." is
"The quick fox". -/
theorem C8_window :
    (∀ length index windowSize : ℤ, 2 * index < windowSize - 1 →
      window_bounds length index windowSize =
        (0, min (windowSize - 1) (length - 1))) ∧
    (∀ t : AttackedText, t.words.length = 4 →
      text_window_around_index t 0 3 =
        .ok (pySliceList t.text (text_index_of_word_index t 0)
          (text_index_of_word_index t 2 + ((t.words.getD 2 []).length : ℤ)))) ∧
    text_window_around_index (rootAT "The quick fox jumps.".toList) 0 3 =
      .ok "The quick fox".toList := by
  have hB : ∀ t : AttackedText, t.words.length = 4 →
      text_window_around_index t 0 3 =
        .ok (pySliceList t.text (text_index_of_word_index t 0)
          (text_index_of_word_index t 2 + ((t.words.getD 2 []).length : ℤ))) := by
    intro t h4
    obtain ⟨a, b, c, d, hw⟩ := words_four h4
    have hwb : window_bounds ((t.words.length : ℕ) : ℤ) 0 3 = (0, 2) := by
      rw [h4]
      rw [window_bounds_low (by norm_num)]
      norm_num
    unfold text_window_around_index
    rw [hwb]
    have hget : pyGetElem t.words 2 = .ok c := by rw [hw]; rfl
    have hgd : t.words.getD 2 [] = c := by rw [hw]; rfl
    rw [hget, hgd]
  refine ⟨fun l i w h => window_bounds_low h, hB, ?_⟩
  rw [hB (rootAT "The quick fox jumps.".toList) (by decide)]
  decide

/-- C8 witness: the two quantified parts applied to window size 3 at index 0
and to the concrete 4-word snapshot. -/
theorem C8_witness :
    window_bounds 4 0 3 = (0, min 2 3) ∧
    text_window_around_index (rootAT "The quick fox jumps.".toList) 0 3 =
      .ok (pySliceList (rootAT "The quick fox jumps.".toList).text
        (text_index_of_word_index (rootAT "The quick fox jumps.".toList) 0)
        (text_index_of_word_index (rootAT "The quick fox jumps.".toList) 2 +
          (((rootAT "The quick fox jumps.".toList).words.getD 2 []).length : ℤ))) :=
  ⟨C8_window.1 4 0 3 (by norm_num),
   C8_window.2.1 (rootAT "The quick fox jumps.".toList) (by decide)⟩

theorem rnwStep_id_book {i : ℕ} {w : List Char} {st st' : RWState}
    (h : rnwStep i w w st = .ok st') :
    st'.newly = st.newly ∧ st'.modified = st.modified ∧ st'.idxMap = st.idxMap := by
  unfold rnwStep at h
  split at h
  · exact Except.noConfusion h
  · simp only [] at h
    repeat' split at h
    all_goals first
      | exact Except.noConfusion h
      | (injection h with h2
         subst h2
         simp_all)

theorem rnwLoop_id_book : ∀ {l : List (ℕ × List Char × List Char)} {st st' : RWState},
    (∀ p ∈ l, p.2.1 = p.2.2) → rnwLoop l st = .ok st' →
    st'.newly = st.newly ∧ st'.modified = st.modified ∧ st'.idxMap = st.idxMap := by
  intro l
  induction l with
  | nil =>
      intro st st' _ h
      rw [rnwLoop] at h
      cases h
      exact ⟨rfl, rfl, rfl⟩
  | cons p rest ih =>
      intro st st' hid h
      obtain ⟨i, w, adv⟩ := p
      have hw : w = adv := hid (i, w, adv) (List.mem_cons_self ..)
      subst hw
      rw [rnwLoop] at h
      split at h
      · exact Except.noConfusion h
      · rename_i st1 hstep
        obtain ⟨h1, h2, h3⟩ := ih (fun p hp => hid p (List.mem_cons_of_mem _ hp)) h
        obtain ⟨g1, g2, g3⟩ := rnwStep_id_book hstep
        exact ⟨h1.trans g1, h2.trans g2, h3.trans g3⟩

theorem rnwStep_del_book {i : ℕ} {w adv : List Char} {st st' : RWState}
    (hadv : words_from_text adv = []) (hw : (words_from_text w).length = 1)
    (h : rnwStep i w adv st = .ok st') :
    st'.newly = st.newly ∧ st'.modified = shiftSetAt st.modified (i : ℤ) (-1) ∧
      st'.idxMap = shiftMapAt st.idxMap (i : ℤ) (-1) := by
  unfold rnwStep at h
  split at h
  · exact Except.noConfusion h
  · simp only [hadv, hw, List.length_nil, List.range_zero, List.map_nil,
      List.toFinset_nil, Finset.union_empty, ite_self] at h
    norm_num at h
    repeat' split at h
    all_goals first
      | exact Except.noConfusion h
      | (injection h with h2
         subst h2
         simp_all)

theorem extBelow_refl (n : ℕ) (st : Store) (h : n ≤ st.length) : ExtBelow n st st :=
  ⟨h, fun _ _ => rfl⟩

theorem extBelow_trans {n : ℕ} {st1 st2 st3 : Store} (h1 : ExtBelow n st1 st2)
    (h2 : ExtBelow n st2 st3) : ExtBelow n st1 st3 :=
  ⟨h2.1, fun r hr => (h2.2 r hr).trans (h1.2 r hr)⟩

theorem extBelow_append (n : ℕ) (st : Store) (o : PObj) (h : n ≤ st.length) :
    ExtBelow n st (st ++ [o]) := by
  constructor
  · rw [List.length_append]
    omega
  · intro r hr
    rw [List.get?_append (by omega)]

theorem extBelow_set (n : ℕ) (st : Store) (r : ℕ) (o : PObj) (h : n ≤ st.length)
    (hr : n ≤ r) : ExtBelow n st (st.set r o) := by
  constructor
  · rw [List.length_set]
    exact h
  · intro r2 hr2
    rw [List.get?_set_ne o st (show r ≠ r2 by omega)]

theorem shiftRefsSt_frame (n i : ℕ) (diff : ℤ) (modRef mapRef : ℕ) (st : Store)
    (hst : n ≤ st.length) (hmod : n ≤ modRef) (hmap : n ≤ mapRef) :
    ExtBelow n st (shiftRefsSt i diff modRef mapRef st).1 ∧
    ∀ p : ℕ × ℕ, (shiftRefsSt i diff modRef mapRef st).2 = .ok p →
      n ≤ p.1 ∧ n ≤ p.2 := by
  unfold shiftRefsSt
  split
  · split
    · dsimp only
      split
      · refine ⟨extBelow_trans (extBelow_append n st _ hst)
          (extBelow_append n _ _ (by rw [List.length_append]; omega)), ?_⟩
        intro p hp
        injection hp with hp2
        subst hp2
        constructor
        · rw [List.length_append]; omega
        · omega
      · exact ⟨extBelow_append n st _ hst, fun p hp => Except.noConfusion hp⟩
    · exact ⟨extBelow_refl n st hst, fun p hp => Except.noConfusion hp⟩
  · refine ⟨extBelow_refl n st hst, ?_⟩
    intro p hp
    injection hp with hp2
    subst hp2
    exact ⟨hmap, hmod⟩

theorem addIdxsSt_frame (n : ℕ) (w adv : List Char) (advNum : ℕ)
    (newIdxs newly : Finset ℤ) (modRef : ℕ) (st : Store)
    (hst : n ≤ st.length) (hmod : n ≤ modRef) :
    ExtBelow n st (addIdxsSt w adv advNum newIdxs newly modRef st).1 := by
  unfold addIdxsSt
  split
  · split
    · exact extBelow_set n st modRef _ hst hmod
    · exact extBelow_refl n st hst
  · exact extBelow_refl n st hst

theorem rnwStepSt_frame (n i : ℕ) (w adv : List Char) (ls : LoopSt) (st : Store)
    (hst : n ≤ st.length) (hm1 : n ≤ ls.modRef) (hm2 : n ≤ ls.mapRef) :
    ExtBelow n st (rnwStepSt i w adv ls st).1 ∧
    ∀ ls2, (rnwStepSt i w adv ls st).2 = .ok ls2 →
      n ≤ ls2.modRef ∧ n ≤ ls2.mapRef := by
  unfold rnwStepSt
  split
  · exact ⟨extBelow_refl n st hst, fun ls2 h => Except.noConfusion h⟩
  · dsimp only
    obtain ⟨hshExt, hshRefs⟩ := shiftRefsSt_frame n i
      (((words_from_text adv).length : ℤ) - ((words_from_text w).length : ℤ))
      ls.modRef ls.mapRef st hst hm1 hm2
    split
    · rename_i st2 e heq
      rw [heq] at hshExt
      exact ⟨hshExt, fun ls2 h => Except.noConfusion h⟩
    · rename_i st2 mapRef1 modRef1 heq
      rw [heq] at hshExt hshRefs
      obtain ⟨hp1, hp2⟩ := hshRefs (mapRef1, modRef1) rfl
      have haddExt := addIdxsSt_frame n w adv (words_from_text adv).length
        (((List.range (words_from_text adv).length).map
          (fun j => ((ls.newI + j : ℕ) : ℤ))).toFinset) ls.newly modRef1 st2
        hshExt.1 hp2
      split
      · rename_i st3 e heq2
        rw [heq2] at haddExt
        exact ⟨extBelow_trans hshExt haddExt, fun ls2 h => Except.noConfusion h⟩
      · rename_i st3 newly2 heq2
        rw [heq2] at haddExt
        have hcomp := extBelow_trans hshExt haddExt
        split
        · split
          · split
            · exact ⟨hcomp, fun ls2 h => Except.noConfusion h⟩
            · refine ⟨hcomp, ?_⟩
              intro ls2 h
              injection h with h2
              subst h2
              exact ⟨hp2, hp1⟩
          · split
            · exact ⟨hcomp, fun ls2 h => Except.noConfusion h⟩
            · refine ⟨hcomp, ?_⟩
              intro ls2 h
              injection h with h2
              subst h2
              exact ⟨hp2, hp1⟩
        · refine ⟨hcomp, ?_⟩
          intro ls2 h
          injection h with h2
          subst h2
          exact ⟨hp2, hp1⟩

end TextAttackSpec

namespace TextAttackSpec

theorem rnwLoopSt_frame (n : ℕ) :
    ∀ (l : List (ℕ × List Char × List Char)) (ls : LoopSt) (st : Store),
    n ≤ st.length → n ≤ ls.modRef → n ≤ ls.mapRef →
    ExtBelow n st (rnwLoopSt l ls st).1 := by
  intro l
  induction l with
  | nil => intro ls st hst _ _; exact extBelow_refl n st hst
  | cons p rest ih =>
      intro ls st hst hm1 hm2
      obtain ⟨i, w, adv⟩ := p
      obtain ⟨hext, hrefs⟩ := rnwStepSt_frame n i w adv ls st hst hm1 hm2
      rw [rnwLoopSt]
      rcases hstep : rnwStepSt i w adv ls st with ⟨st1, res⟩
      rw [hstep] at hext hrefs
      cases res with
      | error e => exact hext
      | ok ls1 =>
          obtain ⟨g1, g2⟩ := hrefs ls1 rfl
          exact extBelow_trans hext (ih ls1 st1 hext.1 g1 g2)

theorem replace_new_words_st_frame (n : ℕ) (s : ATRef) (nw : List (List Char))
    (st : Store) (hst : n ≤ st.length) :
    ExtBelow n st (replace_new_words_st s nw st).1 := by
  unfold replace_new_words_st
  split
  · rename_i m0 heq
    dsimp only
    split
    · rename_i a0 heq2
      try dsimp only
      split
      · rename_i ws heq3
        have hloop := rnwLoopSt_frame n
          ((ws.zip nw).enumFrom 0)
          ⟨(st ++ [PObj.iset m0]).length, st.length, [],
            joinSep SPLIT_TOKEN (s.segs.map Prod.snd), ∅, 0⟩
          (st ++ [PObj.iset m0] ++ [PObj.arr a0])
          (by simp; omega) (by simp; omega) (by simp; omega)
        rcases hl : rnwLoopSt ((ws.zip nw).enumFrom 0)
            ⟨(st ++ [PObj.iset m0]).length, st.length, [],
              joinSep SPLIT_TOKEN (s.segs.map Prod.snd), ∅, 0⟩
            (st ++ [PObj.iset m0] ++ [PObj.arr a0]) with ⟨st3, res⟩
        rw [hl] at hloop
        have hpre : ExtBelow n st (st ++ [PObj.iset m0] ++ [PObj.arr a0]) :=
          extBelow_trans (extBelow_append n st _ hst)
            (extBelow_append n _ _ (by simp; omega))
        cases res with
        | error e => exact extBelow_trans hpre hloop
        | ok lsF =>
            exact extBelow_trans (extBelow_trans hpre hloop)
              (extBelow_append n st3 _ hloop.1)
      · exact extBelow_trans (extBelow_append n st _ hst)
          (extBelow_append n _ _ (by simp; omega))
    · exact extBelow_append n st _ hst
  · exact extBelow_refl n st hst

theorem rwaiLoopSt_frame (n : ℕ) :
    ∀ (l : List (ℤ × List Char)) (wref : ℕ) (st : Store),
    n ≤ st.length → n ≤ wref → ExtBelow n st (rwaiLoopSt l wref st).1 := by
  intro l
  induction l with
  | nil => intro wref st hst _; exact extBelow_refl n st hst
  | cons p rest ih =>
      intro wref st hst hw
      obtain ⟨i, x⟩ := p
      rw [rwaiLoopSt]
      split
      · split
        · exact extBelow_refl n st hst
        · split
          · exact extBelow_refl n st hst
          · exact extBelow_trans (extBelow_set n st wref _ hst hw)
              (ih wref _ (by rw [List.length_set]; exact hst) hw)
      · exact extBelow_refl n st hst

theorem rwai_st_frame (n : ℕ) (s : ATRef) (indices : List ℤ)
    (nw : List (List Char)) (st : Store) (hst : n ≤ st.length) :
    ExtBelow n st (replace_words_at_indices_st s indices nw st).1 := by
  unfold replace_words_at_indices_st
  split
  · exact extBelow_refl n st hst
  · split
    · rename_i ws heq
      try dsimp only
      have h1 : ExtBelow n st (st ++ [PObj.wl ws]) := extBelow_append n st _ hst
      have hloop := rwaiLoopSt_frame n (indices.zip nw) st.length (st ++ [PObj.wl ws])
        (by simp; omega) (by omega)
      rcases hl : rwaiLoopSt (indices.zip nw) st.length (st ++ [PObj.wl ws]) with ⟨st2, res⟩
      rw [hl] at hloop
      cases res with
      | error e => exact extBelow_trans h1 hloop
      | ok u =>
          try dsimp only
          split
          · rename_i edited heq2
            exact extBelow_trans (extBelow_trans h1 hloop)
              (replace_new_words_st_frame n s edited st2 hloop.1)
          · exact extBelow_trans h1 hloop
    · exact extBelow_refl n st hst

/-- C7: `replace_words_at_indices` is atomic with respect to its input in the
store model of Python object aliasing: whether the call returns a new
snapshot or raises, the heap cells holding the input snapshot's `words` list,
`original_index_map` array and `modified_indices` set are unchanged after the
call (the code only mutates objects it freshly copied or allocated; segment
strings are immutable values, so the input text cannot change). -/
theorem C7_atomicity (st : Store) (s : ATRef) (indices : List ℤ)
    (nw : List (List Char)) (hw : s.wordsRef < st.length)
    (hm : s.mapRef < st.length) (hmod : s.modRef < st.length) :
    (replace_words_at_indices_st s indices nw st).1.get? s.wordsRef =
      st.get? s.wordsRef ∧
    (replace_words_at_indices_st s indices nw st).1.get? s.mapRef =
      st.get? s.mapRef ∧
    (replace_words_at_indices_st s indices nw st).1.get? s.modRef =
      st.get? s.modRef := by
  have h := rwai_st_frame st.length s indices nw st (le_refl _)
  exact ⟨h.2 _ hw, h.2 _ hm, h.2 _ hmod⟩

/-- C7 witness: a concrete three-object store; the call hits the
`IndexError` of the `i == len(words)` assignment after allocating the words
copy, and the input cells are untouched. -/
theorem C7_witness :
    (replace_words_at_indices_st ⟨[("text", "a b".toList)], 0, 1, 2⟩ [2]
      ["x".toList]
      [PObj.wl ["a".toList, "b".toList], PObj.arr [0, 1], PObj.iset ∅]).1.get? 0 =
      ([PObj.wl ["a".toList, "b".toList], PObj.arr [0, 1], PObj.iset ∅] :
        Store).get? 0 ∧
    (replace_words_at_indices_st ⟨[("text", "a b".toList)], 0, 1, 2⟩ [2]
      ["x".toList]
      [PObj.wl ["a".toList, "b".toList], PObj.arr [0, 1], PObj.iset ∅]).1.get? 1 =
      ([PObj.wl ["a".toList, "b".toList], PObj.arr [0, 1], PObj.iset ∅] :
        Store).get? 1 ∧
    (replace_words_at_indices_st ⟨[("text", "a b".toList)], 0, 1, 2⟩ [2]
      ["x".toList]
      [PObj.wl ["a".toList, "b".toList], PObj.arr [0, 1], PObj.iset ∅]).1.get? 2 =
      ([PObj.wl ["a".toList, "b".toList], PObj.arr [0, 1], PObj.iset ∅] :
        Store).get? 2 :=
  C7_atomicity [PObj.wl ["a".toList, "b".toList], PObj.arr [0, 1], PObj.iset ∅]
    ⟨[("text", "a b".toList)], 0, 1, 2⟩ [2] ["x".toList]
    (by decide) (by decide) (by decide)

theorem rnwLoop_append : ∀ (l1 l2 : List (ℕ × List Char × List Char)) (st : RWState),
    rnwLoop (l1 ++ l2) st =
      match rnwLoop l1 st with
      | .error e => .error e
      | .ok st1 => rnwLoop l2 st1 := by
  intro l1
  induction l1 with
  | nil => intro l2 st; rfl
  | cons p rest ih =>
      intro l2 st
      obtain ⟨i, w, adv⟩ := p
      rw [List.cons_append, rnwLoop, rnwLoop]
      cases hstep : rnwStep i w adv st with
      | error e => rfl
      | ok st1 => exact ih l2 st1

theorem zip_self_enumFrom_id {α : Type} : ∀ (xs : List α) (n : ℕ)
    (p : ℕ × α × α), p ∈ (xs.zip xs).enumFrom n → p.2.1 = p.2.2 := by
  intro xs
  induction xs with
  | nil => intro n p hp; simp [List.enumFrom] at hp
  | cons x rest ih =>
      intro n p hp
      rw [List.zip_cons_cons, List.enumFrom] at hp
      rcases List.mem_cons.mp hp with rfl | hp
      · rfl
      · exact ih (n + 1) p hp

theorem zip_set_enumFrom {α : Type} : ∀ (ws : List α) (k : ℕ) (d : α) (n : ℕ),
    k < ws.length →
    ((ws.zip (ws.set k d)).enumFrom n) =
      (((ws.take k).zip (ws.take k)).enumFrom n) ++
        (n + k, ws.getD k d, d) ::
          (((ws.drop (k + 1)).zip (ws.drop (k + 1))).enumFrom (n + k + 1)) := by
  intro ws
  induction ws with
  | nil => intro k d n hk; simp at hk
  | cons x rest ih =>
      intro k d n hk
      cases k with
      | zero =>
          rw [show (x :: rest).set 0 d = d :: rest from rfl]
          rw [List.zip_cons_cons, List.enumFrom]
          rw [show List.take 0 (x :: rest) = [] from rfl]
          rw [show List.drop (0 + 1) (x :: rest) = rest from rfl]
          rw [show (x :: rest).getD 0 d = x from rfl]
          simp
      | succ k2 =>
          have hk2 : k2 < rest.length := by simpa using hk
          rw [show (x :: rest).set (k2 + 1) d = x :: rest.set k2 d from rfl]
          rw [List.zip_cons_cons, List.enumFrom]
          rw [ih k2 d (n + 1) hk2]
          rw [show List.take (k2 + 1) (x :: rest) = x :: List.take k2 rest from rfl]
          rw [List.zip_cons_cons, List.enumFrom]
          rw [show (x :: rest).getD (k2 + 1) d = rest.getD k2 d from rfl]
          rw [show List.drop (k2 + 1 + 1) (x :: rest) = List.drop (k2 + 1) rest from rfl]
          have e1 : n + 1 + k2 = n + (k2 + 1) := by omega
          rw [e1, List.cons_append]

end TextAttackSpec

namespace TextAttackSpec

/-- C10: for a rewrite that deletes one word (a replacement tokenizing to
zero words at position `k`) and replaces every other word by itself, a
successful `replace_new_words` yields empty `newly_modified_indices`, a
`modified_indices` set that is exactly the input's set shifted at `k` (no
entry added for the deletion site), and an `original_index_map` whose
entries equal to `k` became `-1` with later entries shifted down. -/
theorem C10_pure_deletion (s : AttackedText) (k : ℕ) (d : List Char)
    (hk : k < s.words.length) (hd : words_from_text d = [])
    (t : AttackedText) (m : Finset ℤ) (a : List ℤ)
    (hm : getSetAttr s "modified_indices" = .ok m)
    (ha : getArrAttr s "original_index_map" = .ok a)
    (h : replace_new_words s (s.words.set k d) = .ok t) :
    getSetAttr t "newly_modified_indices" = .ok ∅ ∧
    getSetAttr t "modified_indices" = .ok (shiftSetAt m (k : ℤ) (-1)) ∧
    getArrAttr t "original_index_map" = .ok (shiftMapAt a (k : ℤ) (-1)) := by
  rw [replace_new_words, hm] at h
  dsimp only at h
  rw [ha] at h
  dsimp only at h
  rw [zip_set_enumFrom s.words k d 0 hk, rnwLoop_append] at h
  cases hpre : rnwLoop (((s.words.take k).zip (s.words.take k)).enumFrom 0)
      ⟨[], joinSep SPLIT_TOKEN (s.textInput.map Prod.snd), ∅, m, a, 0⟩ with
  | error e => rw [hpre] at h; exact Except.noConfusion h
  | ok st1 =>
      rw [hpre] at h
      dsimp only at h
      rw [rnwLoop] at h
      cases hstep : rnwStep (0 + k) (s.words.getD k d) d st1 with
      | error e => rw [hstep] at h; exact Except.noConfusion h
      | ok st2 =>
          rw [hstep] at h
          dsimp only at h
          cases hpost : rnwLoop
              (((s.words.drop (k + 1)).zip (s.words.drop (k + 1))).enumFrom (0 + k + 1))
              st2 with
          | error e => rw [hpost] at h; exact Except.noConfusion h
          | ok stF =>
              rw [hpost] at h
              dsimp only at h
              injection h with h2
              subst h2
              obtain ⟨p1, p2, p3⟩ :=
                rnwLoop_id_book (fun p hp => zip_self_enumFrom_id _ 0 p hp) hpre
              have hwk1 : (words_from_text (s.words.getD k d)).length = 1 := by
                have hmem : s.words.getD k d ∈ s.words := by
                  rw [List.getD_eq_getElem s.words d hk]
                  exact List.getElem_mem hk
                obtain ⟨hne, hword⟩ := @wft_mem_wf s.words s.text rfl _ hmem
                rw [wft_word hne hword]
                rfl
              obtain ⟨q1, q2, q3⟩ := rnwStep_del_book hd hwk1 hstep
              obtain ⟨r1, r2, r3⟩ :=
                rnwLoop_id_book (fun p hp => zip_self_enumFrom_id _ _ p hp) hpost
              have hnewly : stF.newly = ∅ := by rw [r1, q1, p1]
              have hcast : ((0 + k : ℕ) : ℤ) = (k : ℤ) := by simp
              have hmod : stF.modified = shiftSetAt m (k : ℤ) (-1) := by
                rw [r2, q2, p2, hcast]
              have hmap : stF.idxMap = shiftMapAt a (k : ℤ) (-1) := by
                rw [r3, q3, p3, hcast]
              have hl1 : (AttrList.cons "newly_modified_indices" (.intSet stF.newly)
                  (.cons "previous_attacked_text" (.snap s)
                    (.cons "modified_indices" (.intSet stF.modified)
                      (.cons "original_index_map" (.intArr stF.idxMap) .nil)))).lookup
                        "original_index_map" = some (.intArr stF.idxMap) := by
                simp [AttrList.lookup]
              have hl2 : (AttrList.cons "newly_modified_indices" (.intSet stF.newly)
                  (.cons "previous_attacked_text" (.snap s)
                    (.cons "modified_indices" (.intSet stF.modified)
                      (.cons "original_index_map" (.intArr stF.idxMap) .nil)))).lookup
                        "modified_indices" = some (.intSet stF.modified) := by
                simp [AttrList.lookup]
              have hl3 : (AttrList.cons "newly_modified_indices" (.intSet stF.newly)
                  (.cons "previous_attacked_text" (.snap s)
                    (.cons "modified_indices" (.intSet stF.modified)
                      (.cons "original_index_map" (.intArr stF.idxMap) .nil)))).lookup
                        "newly_modified_indices" = some (.intSet stF.newly) := by
                simp [AttrList.lookup]
              refine ⟨?_, ?_, ?_⟩
              · rw [getSetAttr, mkAT_attrs_eq hl1 hl2, hl3, hnewly]
              · rw [getSetAttr, mkAT_attrs_eq hl1 hl2, hl2, hmod]
              · rw [getArrAttr, mkAT_attrs_eq hl1 hl2, hl1, hmap]

set_option maxHeartbeats 2000000 in
/-- C10 witness: deleting word 1 of the root snapshot of "a b". -/
theorem C10_witness :
    getSetAttr (mkAT [("text", "a".toList)]
      (.cons "newly_modified_indices" (.intSet ∅)
        (.cons "previous_attacked_text" (.snap (rootAT "a b".toList))
          (.cons "modified_indices" (.intSet ∅)
            (.cons "original_index_map" (.intArr [0, -1]) .nil)))))
      "newly_modified_indices" = .ok ∅ ∧
    getSetAttr (mkAT [("text", "a".toList)]
      (.cons "newly_modified_indices" (.intSet ∅)
        (.cons "previous_attacked_text" (.snap (rootAT "a b".toList))
          (.cons "modified_indices" (.intSet ∅)
            (.cons "original_index_map" (.intArr [0, -1]) .nil)))))
      "modified_indices" = .ok (shiftSetAt ∅ ((1 : ℕ) : ℤ) (-1)) ∧
    getArrAttr (mkAT [("text", "a".toList)]
      (.cons "newly_modified_indices" (.intSet ∅)
        (.cons "previous_attacked_text" (.snap (rootAT "a b".toList))
          (.cons "modified_indices" (.intSet ∅)
            (.cons "original_index_map" (.intArr [0, -1]) .nil)))))
      "original_index_map" = .ok (shiftMapAt [0, 1] ((1 : ℕ) : ℤ) (-1)) :=
  C10_pure_deletion (rootAT "a b".toList) 1 [] (by decide) rfl
    (mkAT [("text", "a".toList)]
      (.cons "newly_modified_indices" (.intSet ∅)
        (.cons "previous_attacked_text" (.snap (rootAT "a b".toList))
          (.cons "modified_indices" (.intSet ∅)
            (.cons "original_index_map" (.intArr [0, -1]) .nil)))))
    ∅ [0, 1] (by decide) (by decide) (by decide)

end TextAttackSpec
